import Mathlib

set_option maxRecDepth 40000

/-!
Verification of the label_drawer bitmap encoder and upload protocol
(`src/main.rs`) against its specification.

The Rust functions are shallowly embedded as Lean functions:
* a canvas (`ImageBuffer<Luma<u8>, Vec<u8>>`) is a function `ℕ → ℕ → ℕ`
  giving the 8-bit intensity of pixel `(x, y)`;
* `get_bitmap_data` is the bit packer (nested `x`/`y` loops realised as a
  fold over the pixel sequence, with the same `(packed, current_byte,
  bit_pos)` state);
* `write_image` is the chunked upload loop, with the HTTP responses
  supplied by an oracle `ℕ → PostResult` indexed by the chunk's byte
  offset (each offset is posted at most once, so a function is faithful);
* `create_image_with_text` is the text rasterizer, with the glyph draw
  callbacks of `rusttype` supplied as a list of `(px, py, coverage)`
  events, and the `f32` coverage modelled as a rational;
* the image-path width computation models the `f32` chain faithfully:
  each `as f32` conversion, division and multiplication rounds its exact
  rational value to the nearest binary32 value, ties to even (`fround`),
  with an unbounded exponent range — exact for the normal-range values
  that `u32` dimensions with nonzero height can produce.
-/

/-- Binarization used inside `get_bitmap_data`:
`let bit = if val < 128 { 1 } else { 0 };`. -/
def packBit (val : ℕ) : ℕ := if val < 128 then 1 else 0

/-- One iteration of the packing loop body of `get_bitmap_data`, acting on
the state `(packed, current_byte, bit_pos)` for one pixel value `val`:
binarize, OR the bit into the current byte MSB-first, and push the byte
when eight bits have accumulated. -/
def packStep (st : List ℕ × ℕ × ℕ) (val : ℕ) : List ℕ × ℕ × ℕ :=
  let bit := if val < 128 then 1 else 0
  let current_byte := st.2.1 ||| (bit <<< (7 - st.2.2))
  let bit_pos := st.2.2 + 1
  if bit_pos = 8 then (st.1 ++ [current_byte], 0, 0) else (st.1, current_byte, bit_pos)

/-- The sequence of pixel values visited by the loops of
`get_bitmap_data`: `for x in 0..width { for y in 0..height {
img.get_pixel(x, height - y - 1) } }`. -/
def pixelSeq (img : ℕ → ℕ → ℕ) (height width : ℕ) : List ℕ :=
  (List.range width).flatMap (fun x => (List.range height).map (fun y => img x (height - y - 1)))

/-- Embedding of `get_bitmap_data(img, height, width)`: fold the packing
loop body over the visited pixels, starting from an empty output, a zero
current byte and bit position 0, and return the pushed bytes.  As in the
source, a final incomplete byte is never pushed. -/
def get_bitmap_data (img : ℕ → ℕ → ℕ) (height width : ℕ) : List ℕ :=
  ((pixelSeq img height width).foldl packStep ([], 0, 0)).1

/-- Bit `k` of a byte stream, MSB-first within each byte (the spec's
reading order for a PackedBitmap). -/
def nthBit (bytes : List ℕ) (k : ℕ) : ℕ :=
  ((bytes.getD (k / 8) 0) >>> (7 - k % 8)) % 2

/-- The spec's unpacking of a PackedBitmap back to a grid: pixel `(x, y)`
is bit `x * H + (H - 1 - y)` of the stream. -/
def unpackGrid (bytes : List ℕ) (H x y : ℕ) : ℕ :=
  nthBit bytes (x * H + (H - 1 - y))

/-- Value of a byte under construction: the bits `bs`, the first sitting
at bit position `pos` of the byte (position counted from the MSB), ORed
together exactly as the loop of `get_bitmap_data` does. -/
def pvAux : List ℕ → ℕ → ℕ
  | [], _ => 0
  | b :: rest, pos => (b <<< (7 - pos)) ||| pvAux rest (pos + 1)

/-- Reference packing: consume the bit sequence eight at a time, emitting
one byte per complete group and discarding a trailing incomplete group. -/
def packBytes : List ℕ → List ℕ
  | b0 :: b1 :: b2 :: b3 :: b4 :: b5 :: b6 :: b7 :: rest =>
      pvAux [b0, b1, b2, b3, b4, b5, b6, b7] 0 :: packBytes rest
  | _ => []

/-- The packing loop body acting on an already binarized bit. -/
def bitStep (st : List ℕ × ℕ × ℕ) (bit : ℕ) : List ℕ × ℕ × ℕ :=
  let current_byte := st.2.1 ||| (bit <<< (7 - st.2.2))
  let bit_pos := st.2.2 + 1
  if bit_pos = 8 then (st.1 ++ [current_byte], 0, 0) else (st.1, current_byte, bit_pos)

/-- Outcome of one POST to `/uploadjson` as `write_image` observes it:
either `send()` fails at transport level (the `?` propagates a reqwest
error), or a response arrives whose status is or is not a success. -/
inductive PostResult
  | transport
  | response (success : Bool)
deriving DecidableEq

/-- Result channel of `write_image`.  `ok index` models
`println!("UploadJson successfully in {} blocks!", index)` followed by
`Ok(())`; `uploadFailed index` models
`eprintln!("Error at UploadJson, Index {}: {}", index, status)` followed
by `return Err("Upload failed".into())` — the reported index is the byte
offset of the rejected chunk; `transportError` models the propagated
`send()` error. -/
inductive UploadOutcome
  | ok (finalIndex : ℕ)
  | uploadFailed (index : ℕ)
  | transportError
deriving DecidableEq

/-- Take `k` successive chunks of `n` elements from `l`. -/
def chunksGo (n : ℕ) : ℕ → List ℕ → List (List ℕ)
  | 0, _ => []
  | k + 1, l => l.take n :: chunksGo n k (l.drop n)

/-- Rust's `slice::chunks(n)`: successive chunks of `n` bytes, the last
possibly shorter, none empty. -/
def chunksOf (n : ℕ) (l : List ℕ) : List (List ℕ) :=
  chunksGo n ((l.length + n - 1) / n) l

/-- The loop of `write_image` over the remaining chunks: each iteration
builds and sends one POST (recorded in `posts` as the pair of the
`index` field and the raw chunk bytes), then inspects the outcome; the
index counter advances by `CHUNK_SIZE = 96` per iteration regardless of
the chunk's actual length, exactly as `index += CHUNK_SIZE` does. -/
def write_image_loop (oracle : ℕ → PostResult) :
    List (List ℕ) → ℕ → List (ℕ × List ℕ) → List (ℕ × List ℕ) × UploadOutcome
  | [], index, posts => (posts, .ok index)
  | c :: rest, index, posts =>
      match oracle index with
      | .transport => (posts ++ [(index, c)], .transportError)
      | .response s =>
          if s then write_image_loop oracle rest (index + 96) (posts ++ [(index, c)])
          else (posts ++ [(index, c)], .uploadFailed index)

/-- Embedding of `write_image(bytesvec)`: split into 96-byte chunks and
run the upload loop from index 0.  The base64 encoding of each chunk is
a bijective transport encoding done by an external crate; the model
records the raw chunk bytes it encodes. -/
def write_image (oracle : ℕ → PostResult) (bytesvec : List ℕ) :
    List (ℕ × List ℕ) × UploadOutcome :=
  write_image_loop oracle (chunksOf 96 bytesvec) 0 []

/-- The chunk list paired with its byte offsets when offsets advance by
96 per chunk, starting at `start`. -/
def withOffsets (start : ℕ) : List (List ℕ) → List (ℕ × List ℕ)
  | [] => []
  | c :: rest => (start, c) :: withOffsets (start + 96) rest

/-- One invocation of the `glyph.draw` callback in
`create_image_with_text`: the absolute pixel position
`(px, py) = (bb.min.x + x, bb.min.y + y)` (which can be negative, hence
`ℤ`) and the anti-aliased coverage `v` (an `f32` in `[0,1]`, modelled as
a rational). -/
structure DrawEvent where
  px : ℤ
  py : ℤ
  v : ℚ

/-- Body of the draw callback of `create_image_with_text`, acting on the
state `(img, used_len)`: bounds-check, then on coverage above 0.5 write
the exact value 0 at `(px, py)` and raise `used_len` to `px` if larger;
otherwise leave everything untouched. -/
def drawStep (width height : ℕ) (st : (ℕ → ℕ → ℕ) × ℕ) (e : DrawEvent) :
    (ℕ → ℕ → ℕ) × ℕ :=
  if 0 ≤ e.px ∧ e.px < (width : ℤ) ∧ 0 ≤ e.py ∧ e.py < (height : ℤ) then
    if e.v > 1 / 2 then
      (fun x y => if x = e.px.toNat ∧ y = e.py.toNat then 0 else st.1 x y,
       if e.px.toNat > st.2 then e.px.toNat else st.2)
    else st
  else st

/-- The rasterization core of `create_image_with_text`: start from the
all-white canvas (`from_pixel(..., Luma([255u8]))`) and `used_len = 0`,
fold the draw callback over all glyph draw events, then `*used_len += 1`. -/
def renderText (width height : ℕ) (events : List DrawEvent) : (ℕ → ℕ → ℕ) × ℕ :=
  let r := events.foldl (drawStep width height) (fun _ _ => 255, 0)
  (r.1, r.2 + 1)

/-- Result of a Rust call that may panic instead of returning. -/
inductive PanicOr (α : Type)
  | panicked (msg : String)
  | ok (val : α)

/-- Embedding of `create_image_with_text`: `fs::read(font_path)` may fail
(`fontRead = none`), which the source converts into a panic via
`.expect("Error reading font file")`; `Font::try_from_bytes` may fail
(`parseLayout data = none`), which the source converts into a panic via
`.unwrap()`.  On success, `font.layout(text, scale, start)` with the
per-glyph `draw` callbacks is the rusttype collaborator, supplied as the
draw-event list `parseLayout` returns; the function never returns an
error value — its Rust return type is a plain `ImageBuffer`. -/
def create_image_with_text (width height : ℕ) (fontRead : Option (List ℕ))
    (parseLayout : List ℕ → Option (List DrawEvent)) : PanicOr ((ℕ → ℕ → ℕ) × ℕ) :=
  match fontRead with
  | none => .panicked "Error reading font file"
  | some data =>
      match parseLayout data with
      | none => .panicked "called Option unwrap on a None value"
      | some events => .ok (renderText width height events)

/-- Model of `f32::round` for the nonnegative values arising here: round
half away from zero, i.e. `⌊q + 1/2⌋`. -/
def f32round (q : ℚ) : ℤ := ⌊q + 1 / 2⌋

/-- Round a rational to the nearest integer, ties to the even integer —
the rounding used inside every IEEE-754 operation in the default
rounding mode. -/
def roundEven (q : ℚ) : ℤ :=
  if q - ⌊q⌋ < 1 / 2 then ⌊q⌋
  else if 1 / 2 < q - ⌊q⌋ then ⌊q⌋ + 1
  else if ⌊q⌋ % 2 = 0 then ⌊q⌋ else ⌊q⌋ + 1

/-- Round a rational to the nearest `f32` (binary32) value: 24 significand
bits, round to nearest, ties to even.  The exponent range is unbounded
(no overflow or subnormal handling), which coincides with binary32 on the
normal range — that covers every value this program can produce from
`u32` dimensions with a nonzero height. -/
def fround (q : ℚ) : ℚ :=
  if q = 0 then 0
  else if 0 < q then
    (roundEven (q * 2 ^ ((23 : ℤ) - Int.log 2 q)) : ℚ) * 2 ^ (Int.log 2 q - 23)
  else
    -((roundEven (-q * 2 ^ ((23 : ℤ) - Int.log 2 (-q))) : ℚ) * 2 ^ (Int.log 2 (-q) - 23))

/-- Rust's `n as f32` for a `u32` value: convert and round to the nearest
binary32 value (ties to even). -/
def toF32 (n : ℕ) : ℚ := fround (n : ℚ)

/-- A single `f32` division: the exact quotient, rounded to binary32. -/
def fdiv (a b : ℚ) : ℚ := fround (a / b)

/-- A single `f32` multiplication: the exact product, rounded to
binary32. -/
def fmul (a b : ℚ) : ℚ := fround (a * b)

/-- The scaled width computed in the `on_load_image` handler:
`let scale = target_height as f32 / orig_h as f32;
let new_w = (orig_w as f32 * scale).round() as u32;`
with `target_height = 96` and every `f32` conversion and operation
rounding its exact rational value to binary32 (ties to even). -/
def new_width (orig_w orig_h : ℕ) : ℕ :=
  (f32round (fmul (toF32 orig_w) (fdiv (toF32 96) (toF32 orig_h)))).toNat

/-- The print width stored by the image path —
`ui.set_print_width(new_w as i32)` — i.e. the image path's UsedWidth. -/
def image_print_width (orig_w orig_h : ℕ) : ℕ := new_width orig_w orig_h

theorem packBytes_short (l : List ℕ) (h : l.length < 8) : packBytes l = [] := by
  rcases l with _ | ⟨a, _ | ⟨b, _ | ⟨c, _ | ⟨d, _ | ⟨e, _ | ⟨f, _ | ⟨g, _ | ⟨x, rest⟩⟩⟩⟩⟩⟩⟩⟩ <;>
    first
      | rfl
      | (exfalso; simp at h; omega)

theorem packBytes_length (l : List ℕ) : (packBytes l).length = l.length / 8 := by
  induction l using packBytes.induct with
  | case1 b0 b1 b2 b3 b4 b5 b6 b7 rest ih =>
      simp only [packBytes, List.length_cons, ih]
      omega
  | case2 l h =>
      have hlen : l.length < 8 := by
        rcases l with _ | ⟨a, _ | ⟨b, _ | ⟨c, _ | ⟨d, _ | ⟨e, _ | ⟨f, _ | ⟨g, _ | ⟨x, rest⟩⟩⟩⟩⟩⟩⟩⟩ <;>
          first
            | (exfalso; exact h _ _ _ _ _ _ _ _ _ rfl)
            | simp
      rw [packBytes_short l hlen]
      simp [Nat.div_eq_of_lt hlen]

theorem pvAux_append (l : List ℕ) (b : ℕ) :
    ∀ pos : ℕ, pvAux (l ++ [b]) pos = pvAux l pos ||| (b <<< (7 - (pos + l.length))) := by
  induction l with
  | nil =>
      intro pos
      simp [pvAux, Nat.zero_or, Nat.or_zero]
  | cons a rest ih =>
      intro pos
      have h1 : pos + 1 + rest.length = pos + (rest.length + 1) := by omega
      simp only [List.cons_append, pvAux, List.length_cons, List.append_eq]
      rw [ih (pos + 1), Nat.or_assoc, h1]

theorem foldl_packStep_eq_bitStep (vals : List ℕ) (st : List ℕ × ℕ × ℕ) :
    vals.foldl packStep st = (vals.map packBit).foldl bitStep st := by
  rw [List.foldl_map]
  rfl

theorem packBytes_full (buf : List ℕ) (b : ℕ) (rest : List ℕ) (h : buf.length = 7) :
    packBytes (buf ++ b :: rest) = pvAux (buf ++ [b]) 0 :: packBytes rest := by
  rcases buf with _ | ⟨c0, _ | ⟨c1, _ | ⟨c2, _ | ⟨c3, _ | ⟨c4, _ | ⟨c5, _ | ⟨c6, tail⟩⟩⟩⟩⟩⟩⟩ <;>
    simp at h
  subst h
  rfl

theorem foldl_bitStep_spec (bits : List ℕ) :
    ∀ packed buf : List ℕ, buf.length < 8 →
      (bits.foldl bitStep (packed, pvAux buf 0, buf.length)).1 = packed ++ packBytes (buf ++ bits) := by
  induction bits with
  | nil =>
      intro packed buf h
      simp [packBytes_short buf h]
  | cons b rest ih =>
      intro packed buf h
      rw [List.foldl_cons]
      by_cases h8 : buf.length + 1 = 8
      · have hb7 : buf.length = 7 := by omega
        have hstep : bitStep (packed, pvAux buf 0, buf.length) b =
            (packed ++ [pvAux (buf ++ [b]) 0], pvAux ([] : List ℕ) 0, ([] : List ℕ).length) := by
          simp only [bitStep, h8, if_pos]
          rw [pvAux_append]
          simp [pvAux]
        rw [hstep, ih (packed ++ [pvAux (buf ++ [b]) 0]) [] (by simp),
          packBytes_full buf b rest hb7]
        simp
      · have hstep : bitStep (packed, pvAux buf 0, buf.length) b =
            (packed, pvAux (buf ++ [b]) 0, (buf ++ [b]).length) := by
          simp only [bitStep, h8, if_neg, List.length_append, List.length_cons,
            List.length_nil]
          rw [pvAux_append]
          simp
        rw [hstep, ih packed (buf ++ [b]) (by simp; omega)]
        simp

theorem get_bitmap_data_eq (img : ℕ → ℕ → ℕ) (h w : ℕ) :
    get_bitmap_data img h w = packBytes ((pixelSeq img h w).map packBit) := by
  unfold get_bitmap_data
  rw [foldl_packStep_eq_bitStep]
  have hs := foldl_bitStep_spec ((pixelSeq img h w).map packBit) [] [] (by simp)
  simpa using hs

theorem pixelSeq_length (img : ℕ → ℕ → ℕ) (h w : ℕ) : (pixelSeq img h w).length = w * h := by
  induction w with
  | zero => simp [pixelSeq]
  | succ w ih =>
      rw [pixelSeq, List.range_succ, List.flatMap_append]
      rw [pixelSeq] at ih
      simp only [List.length_append, ih, List.flatMap_cons, List.flatMap_nil,
        List.append_nil, List.length_map, List.length_range]
      ring

theorem pvAux_lt (bs : List ℕ) :
    ∀ pos : ℕ, (∀ b ∈ bs, b ≤ 1) → pos + bs.length ≤ 8 → pvAux bs pos < 2 ^ (8 - pos) := by
  induction bs with
  | nil =>
      intro pos _ _
      simp only [pvAux]
      exact Nat.two_pow_pos _
  | cons b rest ih =>
      intro pos hb hlen
      simp only [pvAux]
      have hpos : pos ≤ 7 := by
        simp only [List.length_cons] at hlen
        omega
      have h87 : 8 - pos = (7 - pos) + 1 := by omega
      apply Nat.or_lt_two_pow
      · rw [Nat.shiftLeft_eq, h87, pow_succ]
        have hb1 : b ≤ 1 := hb b (List.mem_cons_self b rest)
        have := Nat.two_pow_pos (7 - pos)
        calc b * 2 ^ (7 - pos) ≤ 1 * 2 ^ (7 - pos) := Nat.mul_le_mul_right _ hb1
          _ < 2 ^ (7 - pos) * 2 := by omega
      · have h1 : 8 - (pos + 1) = 7 - pos := by omega
        have h2 : pvAux rest (pos + 1) < 2 ^ (8 - (pos + 1)) := by
          apply ih (pos + 1) (fun b hbm => hb b (List.mem_cons_of_mem _ hbm))
          simp only [List.length_cons] at hlen
          omega
        rw [h1] at h2
        rw [h87, pow_succ]
        have := Nat.two_pow_pos (7 - pos)
        omega

theorem shiftRight_mod_two (x n : ℕ) : (x >>> n) % 2 = (x.testBit n).toNat := by
  rw [Nat.shiftRight_eq_div_pow, Nat.testBit_to_div_mod]
  rcases Nat.mod_two_eq_zero_or_one (x / 2 ^ n) with hm | hm <;> simp [hm]

theorem pvAux_testBit (bs : List ℕ) :
    ∀ pos j : ℕ, (∀ b ∈ bs, b ≤ 1) → pos + bs.length ≤ 8 → pos ≤ j → j < pos + bs.length →
      ((pvAux bs pos).testBit (7 - j)).toNat = bs.getD (j - pos) 0 := by
  induction bs with
  | nil =>
      intro pos j _ _ h1 h2
      simp only [List.length_nil] at h2
      omega
  | cons b rest ih =>
      intro pos j hb hlen hpj hj
      simp only [List.length_cons] at hlen hj
      have hb1 : b ≤ 1 := hb b (List.mem_cons_self b rest)
      have hbr : ∀ c ∈ rest, c ≤ 1 := fun c hc => hb c (List.mem_cons_of_mem _ hc)
      simp only [pvAux, Nat.testBit_lor]
      rcases Nat.eq_or_lt_of_le hpj with heq | hlt
      · subst heq
        have hrest : (pvAux rest (pos + 1)).testBit (7 - pos) = false := by
          apply Nat.testBit_lt_two_pow
          have := pvAux_lt rest (pos + 1) hbr (by omega)
          have h1 : 8 - (pos + 1) = 7 - pos := by omega
          rw [h1] at this
          exact this
        have hself : (b <<< (7 - pos)).testBit (7 - pos) = b.testBit 0 := by
          rw [Nat.testBit_shiftLeft]
          simp
        rw [hrest, hself, Bool.or_false, Nat.sub_self, List.getD_cons_zero]
        interval_cases b <;> decide
      · have hj7 : j ≤ 7 := by omega
        have hpos7 : pos < 7 := by omega
        have hself : (b <<< (7 - pos)).testBit (7 - j) = false := by
          rw [Nat.testBit_shiftLeft]
          have : ¬ (7 - pos ≤ 7 - j) := by omega
          simp [this]
        have harg : j - pos = (j - (pos + 1)) + 1 := by omega
        rw [hself, Bool.false_or, harg, List.getD_cons_succ]
        exact ih (pos + 1) j hbr (by omega) (by omega) (by omega)

theorem nthBit_cons_ge (a : ℕ) (t : List ℕ) (k : ℕ) (h : 8 ≤ k) :
    nthBit (a :: t) k = nthBit t (k - 8) := by
  unfold nthBit
  have h1 : k / 8 = (k - 8) / 8 + 1 := by omega
  have h2 : k % 8 = (k - 8) % 8 := by omega
  rw [h1, h2, List.getD_cons_succ]

theorem packBytes_nthBit (bits : List ℕ) (hb : ∀ b ∈ bits, b ≤ 1) :
    ∀ k, k < 8 * (packBytes bits).length → nthBit (packBytes bits) k = bits.getD k 0 := by
  induction bits using packBytes.induct with
  | case1 b0 b1 b2 b3 b4 b5 b6 b7 rest ih =>
      intro k hk
      have hbits : b0 :: b1 :: b2 :: b3 :: b4 :: b5 :: b6 :: b7 :: rest =
          [b0, b1, b2, b3, b4, b5, b6, b7] ++ rest := rfl
      have hbr : ∀ c ∈ rest, c ≤ 1 := by
        intro c hc
        exact hb c (by simp; tauto)
      have hb8 : ∀ c ∈ [b0, b1, b2, b3, b4, b5, b6, b7], c ≤ 1 := by
        intro c hc
        simp at hc
        exact hb c (by simp; tauto)
      by_cases hk8 : k < 8
      · have hdiv : k / 8 = 0 := Nat.div_eq_of_lt hk8
        have hmod : k % 8 = k := Nat.mod_eq_of_lt hk8
        rw [packBytes, nthBit, hdiv, hmod, List.getD_cons_zero]
        rw [shiftRight_mod_two, pvAux_testBit _ 0 k hb8 (by simp) (by omega) (by simp; omega)]
        rw [hbits, List.getD_append _ _ _ _ (by simp; omega)]
        simp
      · rw [packBytes, nthBit_cons_ge _ _ k (by omega)]
        rw [packBytes, List.length_cons] at hk
        rw [ih hbr (k - 8) (by omega), hbits, List.getD_append_right _ _ _ _ (by simp; omega)]
        simp
  | case2 l h =>
      intro k hk
      have hlen : l.length < 8 := by
        rcases l with _ | ⟨a, _ | ⟨b, _ | ⟨c, _ | ⟨d, _ | ⟨e, _ | ⟨f, _ | ⟨g, _ | ⟨x, rest⟩⟩⟩⟩⟩⟩⟩⟩ <;>
          first
            | (exfalso; exact h _ _ _ _ _ _ _ _ _ rfl)
            | simp
      rw [packBytes_short l hlen] at hk
      simp at hk

theorem rangeMap_getD (g : ℕ → ℕ) (n j : ℕ) (hj : j < n) :
    ((List.range n).map g).getD j 0 = g j := by
  rw [List.getD_eq_getElem?_getD, List.getElem?_map, List.getElem?_range hj]
  rfl

theorem pixelSeq_getD (img : ℕ → ℕ → ℕ) (h : ℕ) :
    ∀ w k : ℕ, k < w * h → (pixelSeq img h w).getD k 0 = img (k / h) (h - k % h - 1) := by
  intro w
  induction w with
  | zero =>
      intro k hk
      omega
  | succ w ih =>
      intro k hk
      rw [pixelSeq, List.range_succ, List.flatMap_append]
      have hlen : ((List.range w).flatMap
          (fun x => (List.range h).map (fun y => img x (h - y - 1)))).length = w * h :=
        pixelSeq_length img h w
      by_cases hkw : k < w * h
      · rw [List.getD_append _ _ _ _ (by rw [hlen]; exact hkw)]
        exact ih k hkw
      · have hh : 0 < h := by
          rcases Nat.eq_zero_or_pos h with h0 | h0
          · rw [h0, mul_zero] at hk
            omega
          · exact h0
        rw [List.getD_append_right _ _ _ _ (by rw [hlen]; omega), hlen]
        simp only [List.flatMap_cons, List.flatMap_nil, List.append_nil]
        have hkh : k - w * h < h := by
          have : k < (w + 1) * h := hk
          have hwh : (w + 1) * h = w * h + h := by ring
          omega
        rw [rangeMap_getD _ _ _ hkh]
        have hdiv : k / h = w := by
          apply Nat.div_eq_of_lt_le
          · omega
          · exact hk
        have hmod : k % h = k - w * h := by
          have h2 : (h * w + (k - w * h)) % h = k - w * h := by
            rw [Nat.mul_add_mod]
            exact Nat.mod_eq_of_lt hkh
          calc k % h = (h * w + (k - w * h)) % h := by
                rw [show h * w + (k - w * h) = k by rw [mul_comm h w]; omega]
            _ = k - w * h := h2
        rw [hdiv, hmod]

theorem packBit_le_one (v : ℕ) : packBit v ≤ 1 := by
  unfold packBit
  split <;> omega

theorem map_packBit_le_one (l : List ℕ) : ∀ b ∈ l.map packBit, b ≤ 1 := by
  intro b hb
  rcases List.mem_map.mp hb with ⟨v, _, hv⟩
  rw [← hv]
  exact packBit_le_one v

theorem getD_map_packBit (l : List ℕ) (k : ℕ) (hk : k < l.length) :
    (l.map packBit).getD k 0 = packBit (l.getD k 0) := by
  rw [List.getD_eq_getElem?_getD, List.getElem?_map, List.getD_eq_getElem?_getD,
    List.getElem?_eq_getElem hk]
  rfl

/-- Combined characterization of the bit packer: the packed stream has
`⌊w·h/8⌋` bytes and its `k`-th bit is the binarized pixel of column
`k / h`, row `h - 1 - k % h`. -/
theorem get_bitmap_data_length (img : ℕ → ℕ → ℕ) (h w : ℕ) :
    (get_bitmap_data img h w).length = w * h / 8 := by
  rw [get_bitmap_data_eq, packBytes_length, List.length_map, pixelSeq_length]

theorem get_bitmap_data_nthBit (img : ℕ → ℕ → ℕ) (h w k : ℕ)
    (hk : k < 8 * (get_bitmap_data img h w).length) :
    nthBit (get_bitmap_data img h w) k = packBit (img (k / h) (h - 1 - k % h)) := by
  have hk' : k < w * h := by
    rw [get_bitmap_data_length] at hk
    have := Nat.div_mul_le_self (w * h) 8
    omega
  rw [get_bitmap_data_eq]
  rw [get_bitmap_data_eq] at hk
  rw [packBytes_nthBit _ (map_packBit_le_one _) k hk]
  rw [getD_map_packBit _ _ (by rw [pixelSeq_length]; exact hk')]
  rw [pixelSeq_getD img h w k hk']
  have : h - k % h - 1 = h - 1 - k % h := by omega
  rw [this]

theorem unpack_index_arith (h x y : ℕ) (hy : y < h) :
    (x * h + (h - 1 - y)) / h = x ∧ (x * h + (h - 1 - y)) % h = h - 1 - y := by
  have hh : 0 < h := by omega
  have hr : h - 1 - y < h := by omega
  constructor
  · apply Nat.div_eq_of_lt_le
    · omega
    · have : (x + 1) * h = x * h + h := by ring
      omega
  · have hk : x * h + (h - 1 - y) = h * x + (h - 1 - y) := by ring
    rw [hk, Nat.mul_add_mod]
    exact Nat.mod_eq_of_lt hr

/-- C1 counterexample: on a 1×1 all-black canvas the packed stream is
empty (the single bit never completes a byte), so unpacking does not
reproduce the binarized grid: the pixel binarizes to 1 but the unpacked
bit is 0. -/
theorem packed_roundtrip_cex :
    packBit ((fun _ _ => (0 : ℕ)) 0 0) = 1
    ∧ get_bitmap_data (fun _ _ => (0 : ℕ)) 1 1 = []
    ∧ unpackGrid (get_bitmap_data (fun _ _ => (0 : ℕ)) 1 1) 1 0 0 = 0 := by
  refine ⟨by decide, by decide, by decide⟩

/-- C1 (amended): every bit actually present in the packed stream obeys
the column-major bottom-to-top MSB-first mapping — bit `k` is the
binarized pixel of column `k / H`, row `H - 1 - (k mod H)` — and whenever
`8 ∣ W·H` (as for the 2000×96 canvas) unpacking the PackedBitmap
reproduces the binarized grid exactly. -/
theorem packed_bit_column_major :
    (∀ (img : ℕ → ℕ → ℕ) (w h k : ℕ), k < 8 * (get_bitmap_data img h w).length →
        nthBit (get_bitmap_data img h w) k = packBit (img (k / h) (h - 1 - k % h)))
    ∧ (∀ (img : ℕ → ℕ → ℕ) (w h x y : ℕ), 8 ∣ w * h → x < w → y < h →
        unpackGrid (get_bitmap_data img h w) h x y = packBit (img x y)) := by
  constructor
  · intro img w h k hk
    exact get_bitmap_data_nthBit img h w k hk
  · intro img w h x y h8 hx hy
    have hh : 0 < h := by omega
    have hk1 : x * h + (h - 1 - y) < x * h + h := by omega
    have hk2 : x * h + h ≤ w * h := by
      have hmul : (x + 1) * h ≤ w * h := Nat.mul_le_mul_right h (by omega)
      have : (x + 1) * h = x * h + h := by ring
      omega
    have hlen8 : 8 * (get_bitmap_data img h w).length = w * h := by
      rw [get_bitmap_data_length]
      exact Nat.mul_div_cancel' h8
    have hkb : x * h + (h - 1 - y) < 8 * (get_bitmap_data img h w).length := by omega
    unfold unpackGrid
    rw [get_bitmap_data_nthBit img h w _ hkb]
    rcases unpack_index_arith h x y hy with ⟨hdiv, hmod⟩
    rw [hdiv, hmod]
    congr 2
    omega

theorem packed_bit_column_major_witness :
    nthBit (get_bitmap_data (fun x y => if x = 0 ∧ y = 0 then 0 else 255) 4 2) 3
        = packBit ((fun x y => if x = 0 ∧ y = 0 then (0 : ℕ) else 255) (3 / 4) (4 - 1 - 3 % 4))
    ∧ unpackGrid (get_bitmap_data (fun x y => if x = 0 ∧ y = 0 then 0 else 255) 4 2) 4 0 0
        = packBit ((fun x y => if x = 0 ∧ y = 0 then (0 : ℕ) else 255) 0 0) :=
  ⟨packed_bit_column_major.1 _ 2 4 3 (by decide),
   packed_bit_column_major.2 _ 2 4 0 0 (by decide) (by decide) (by decide)⟩

/-- C2 counterexample: a 3×3 canvas has 9 pixels; the claimed length is
`ceil(9/8) = 2` bytes, but the packer emits a single byte, dropping the
ninth bit instead of zero-padding a final incomplete byte. -/
theorem packed_length_cex :
    (get_bitmap_data (fun _ _ => (0 : ℕ)) 3 3).length = 1
    ∧ (1 : ℕ) ≠ (3 * 3 + 7) / 8 := by
  refine ⟨by decide, by decide⟩

/-- C2 (amended): the PackedBitmap has `⌊W·H/8⌋` bytes — equal to
`⌈W·H/8⌉` exactly when `8 ∣ W·H` (as for the 2000×96 canvas); when `W·H`
is not a multiple of 8 the trailing bits beyond the last full byte are
discarded rather than emitted as a zero-padded final byte. -/
theorem packed_length_floor :
    ∀ (img : ℕ → ℕ → ℕ) (h w : ℕ),
      (get_bitmap_data img h w).length = w * h / 8
      ∧ (8 ∣ w * h → (get_bitmap_data img h w).length = (w * h + 7) / 8) := by
  intro img h w
  refine ⟨get_bitmap_data_length img h w, fun h8 => ?_⟩
  rw [get_bitmap_data_length]
  rcases h8 with ⟨c, hc⟩
  omega

theorem packed_length_floor_witness :
    (get_bitmap_data (fun _ _ => (0 : ℕ)) 2 4).length = 4 * 2 / 8
    ∧ (get_bitmap_data (fun _ _ => (0 : ℕ)) 2 4).length = (4 * 2 + 7) / 8 :=
  ⟨(packed_length_floor (fun _ _ => 0) 2 4).1,
   (packed_length_floor (fun _ _ => 0) 2 4).2 (by decide)⟩

/-- C3: the packer binarizes with cutover exactly at intensity 128: a
pixel with intensity < 128 packs to bit 1 and a pixel with intensity
≥ 128 packs to bit 0; in particular intensity 0 packs to 1 and intensity
255 packs to 0 (stated for every pixel whose bit lands in the emitted
stream). -/
theorem threshold_cutover :
    ∀ (img : ℕ → ℕ → ℕ) (w h x y : ℕ), x < w → y < h →
      x * h + (h - 1 - y) < 8 * (get_bitmap_data img h w).length →
      (img x y < 128 → nthBit (get_bitmap_data img h w) (x * h + (h - 1 - y)) = 1)
      ∧ (128 ≤ img x y → nthBit (get_bitmap_data img h w) (x * h + (h - 1 - y)) = 0)
      ∧ (img x y = 0 → nthBit (get_bitmap_data img h w) (x * h + (h - 1 - y)) = 1)
      ∧ (img x y = 255 → nthBit (get_bitmap_data img h w) (x * h + (h - 1 - y)) = 0) := by
  intro img w h x y hx hy hk
  rw [get_bitmap_data_nthBit img h w _ hk]
  rcases unpack_index_arith h x y hy with ⟨hdiv, hmod⟩
  rw [hdiv, hmod]
  have hyy : h - 1 - (h - 1 - y) = y := by omega
  rw [hyy]
  unfold packBit
  refine ⟨fun hlt => by simp [hlt], fun hge => by simp [Nat.not_lt_of_le hge],
    fun h0 => by simp [h0], fun h255 => by simp [h255]⟩

theorem threshold_cutover_witness :
    nthBit (get_bitmap_data (fun x _ => 32 * x) 1 8) (0 * 1 + (1 - 1 - 0)) = 1
    ∧ nthBit (get_bitmap_data (fun x _ => 32 * x) 1 8) (4 * 1 + (1 - 1 - 0)) = 0 :=
  ⟨(threshold_cutover (fun x _ => 32 * x) 8 1 0 0 (by decide) (by decide) (by decide)).1
      (by decide),
   ((threshold_cutover (fun x _ => 32 * x) 8 1 4 0 (by decide) (by decide) (by decide)).2).1
      (by decide)⟩

theorem withOffsets_length (start : ℕ) (cs : List (List ℕ)) :
    (withOffsets start cs).length = cs.length := by
  induction cs generalizing start with
  | nil => rfl
  | cons c rest ih => simp [withOffsets, ih]

theorem withOffsets_map_snd (start : ℕ) (cs : List (List ℕ)) :
    (withOffsets start cs).map Prod.snd = cs := by
  induction cs generalizing start with
  | nil => rfl
  | cons c rest ih => simp [withOffsets, ih]

theorem withOffsets_getD (cs : List (List ℕ)) :
    ∀ start j, j < cs.length →
      (withOffsets start cs).getD j (0, []) = (start + 96 * j, cs.getD j []) := by
  induction cs with
  | nil =>
      intro start j hj
      simp at hj
  | cons c rest ih =>
      intro start j hj
      cases j with
      | zero => simp [withOffsets]
      | succ j =>
          simp only [withOffsets, List.getD_cons_succ]
          rw [ih (start + 96) j (by simp at hj; omega)]
          have : start + 96 + 96 * j = start + 96 * (j + 1) := by ring
          rw [this]

theorem withOffsets_mem (cs : List (List ℕ)) :
    ∀ start p, p ∈ withOffsets start cs → ∃ j, j < cs.length ∧ p.1 = start + 96 * j := by
  induction cs with
  | nil =>
      intro start p hp
      simp [withOffsets] at hp
  | cons c rest ih =>
      intro start p hp
      simp only [withOffsets, List.mem_cons] at hp
      rcases hp with hp | hp
      · exact ⟨0, by simp, by simp [hp]⟩
      · rcases ih (start + 96) p hp with ⟨j, hj, hpj⟩
        exact ⟨j + 1, by simp; omega, by rw [hpj]; ring⟩

theorem write_image_loop_success (oracle : ℕ → PostResult)
    (h : ∀ i, oracle i = .response true) :
    ∀ (chunks : List (List ℕ)) (index : ℕ) (posts : List (ℕ × List ℕ)),
      write_image_loop oracle chunks index posts =
        (posts ++ withOffsets index chunks, .ok (index + 96 * chunks.length)) := by
  intro chunks
  induction chunks with
  | nil =>
      intro index posts
      simp [write_image_loop, withOffsets]
  | cons c rest ih =>
      intro index posts
      rw [write_image_loop, h index]
      simp only [if_true]
      rw [ih (index + 96) (posts ++ [(index, c)])]
      simp only [withOffsets, List.length_cons, List.append_assoc, List.singleton_append]
      have : index + 96 + 96 * rest.length = index + 96 * (rest.length + 1) := by ring
      rw [this]

theorem chunksGo_length (n : ℕ) : ∀ (k : ℕ) (l : List ℕ), (chunksGo n k l).length = k := by
  intro k
  induction k with
  | zero => intro l; rfl
  | succ k ih =>
      intro l
      simp [chunksGo, ih]

theorem chunksOf_length (l : List ℕ) : (chunksOf 96 l).length = (l.length + 95) / 96 := by
  rw [chunksOf, chunksGo_length]
  omega

theorem chunksGo_flatten (n : ℕ) (_hn : 0 < n) :
    ∀ (k : ℕ) (l : List ℕ), l.length ≤ k * n → (chunksGo n k l).flatten = l := by
  intro k
  induction k with
  | zero =>
      intro l hl
      have hl0 : l.length = 0 := by simpa using hl
      have hnil : l = [] := List.length_eq_zero.mp hl0
      simp [chunksGo, hnil]
  | succ k ih =>
      intro l hl
      simp only [chunksGo, List.flatten_cons]
      have hd : (l.drop n).length ≤ k * n := by
        simp only [List.length_drop]
        have hkn : (k + 1) * n = k * n + n := by ring
        omega
      rw [ih (l.drop n) hd]
      exact List.take_append_drop n l

theorem chunksOf_flatten (l : List ℕ) : (chunksOf 96 l).flatten = l := by
  apply chunksGo_flatten 96 (by omega)
  omega

theorem chunksGo_getD (n : ℕ) :
    ∀ (j k : ℕ) (l : List ℕ), j < k → (chunksGo n k l).getD j [] = (l.drop (j * n)).take n := by
  intro j
  induction j with
  | zero =>
      intro k l hk
      cases k with
      | zero => omega
      | succ k => simp [chunksGo]
  | succ j ih =>
      intro k l hk
      cases k with
      | zero => omega
      | succ k =>
          simp only [chunksGo, List.getD_cons_succ]
          rw [ih k (l.drop n) (by omega), List.drop_drop]
          have harith : n + j * n = (j + 1) * n := by ring
          rw [harith]

theorem chunksOf_full (l : List ℕ) (j : ℕ) (hj : j + 1 < (chunksOf 96 l).length) :
    ((chunksOf 96 l).getD j []).length = 96 := by
  rw [chunksOf_length] at hj
  rw [chunksOf, chunksGo_getD 96 j _ l (by omega)]
  simp only [List.length_take, List.length_drop]
  omega

theorem chunksOf_last (l : List ℕ) (hl : l ≠ []) :
    1 ≤ ((chunksOf 96 l).getD ((chunksOf 96 l).length - 1) []).length
    ∧ ((chunksOf 96 l).getD ((chunksOf 96 l).length - 1) []).length ≤ 96 := by
  have hlen : 0 < l.length := List.length_pos.mpr hl
  have hN : 0 < (chunksOf 96 l).length := by
    rw [chunksOf_length]
    omega
  rw [chunksOf_length] at hN ⊢
  rw [chunksOf, chunksGo_getD 96 _ _ l (by omega)]
  simp only [List.length_take, List.length_drop]
  omega

theorem write_image_loop_abort (oracle : ℕ → PostResult) :
    ∀ (chunks : List (List ℕ)) (i index : ℕ) (posts : List (ℕ × List ℕ)),
      i < chunks.length →
      (∀ j, j < i → oracle (index + 96 * j) = .response true) →
      oracle (index + 96 * i) ≠ .response true →
      (write_image_loop oracle chunks index posts).1
          = posts ++ withOffsets index (chunks.take (i + 1))
      ∧ (oracle (index + 96 * i) = .response false →
          (write_image_loop oracle chunks index posts).2 = .uploadFailed (index + 96 * i))
      ∧ (oracle (index + 96 * i) = .transport →
          (write_image_loop oracle chunks index posts).2 = .transportError) := by
  intro chunks
  induction chunks with
  | nil =>
      intro i index posts hi _ _
      simp at hi
  | cons c rest ih =>
      intro i index posts hi hsucc hfail
      cases i with
      | zero =>
          simp only [Nat.mul_zero, Nat.add_zero] at hfail ⊢
          rw [write_image_loop]
          cases horacle : oracle index with
          | transport =>
              refine ⟨?_, ?_, ?_⟩
              · simp [withOffsets]
              · intro hr
                cases hr
              · intro _
                rfl
          | response s =>
              cases s with
              | true => exact absurd horacle hfail
              | false =>
                  refine ⟨?_, ?_, ?_⟩
                  · simp [withOffsets]
                  · intro _
                    rfl
                  · intro hr
                    cases hr
      | succ i' =>
          have h0 : oracle index = .response true := by
            have := hsucc 0 (by omega)
            simpa using this
          rw [write_image_loop, h0]
          simp only [if_true]
          have hsucc' : ∀ j, j < i' → oracle (index + 96 + 96 * j) = .response true := by
            intro j hj
            have := hsucc (j + 1) (by omega)
            have harith : index + 96 * (j + 1) = index + 96 + 96 * j := by ring
            rw [harith] at this
            exact this
          have hfail' : oracle (index + 96 + 96 * i') ≠ .response true := by
            have harith : index + 96 + 96 * i' = index + 96 * (i' + 1) := by ring
            rw [harith]
            exact hfail
          have harith2 : index + 96 + 96 * i' = index + 96 * (i' + 1) := by ring
          rcases ih i' (index + 96) (posts ++ [(index, c)]) (by simp at hi; omega)
            hsucc' hfail' with ⟨hposts, hresp, htrans⟩
          refine ⟨?_, ?_, ?_⟩
          · rw [hposts]
            simp only [List.take_succ_cons, withOffsets, List.append_assoc,
              List.singleton_append]
          · intro hr
            rw [← harith2] at hr
            rw [hresp hr, harith2]
          · intro hr
            rw [← harith2] at hr
            exact htrans hr

/-- C4: with every POST succeeding, `write_image` splits the PackedBitmap
into successive chunks — every chunk but the last exactly 96 bytes, the
last between 1 and 96 bytes — sends each with its byte offset as the
`index` field, offsets starting at 0 and increasing by the previous
chunk's length, and the concatenation of all chunk payloads in offset
order is exactly the PackedBitmap. -/
theorem upload_chunking :
    ∀ (bytes : List ℕ) (oracle : ℕ → PostResult), (∀ i, oracle i = .response true) →
      (((write_image oracle bytes).1.map Prod.snd).flatten = bytes)
      ∧ (∀ j, j + 1 < (write_image oracle bytes).1.length →
          (((write_image oracle bytes).1.getD j (0, [])).2).length = 96)
      ∧ (bytes ≠ [] →
          1 ≤ (((write_image oracle bytes).1.getD
                ((write_image oracle bytes).1.length - 1) (0, [])).2).length
          ∧ (((write_image oracle bytes).1.getD
                ((write_image oracle bytes).1.length - 1) (0, [])).2).length ≤ 96)
      ∧ (∀ j, j < (write_image oracle bytes).1.length →
          ((write_image oracle bytes).1.getD j (0, [])).1 = 96 * j)
      ∧ (∀ j, j + 1 < (write_image oracle bytes).1.length →
          ((write_image oracle bytes).1.getD (j + 1) (0, [])).1
            = ((write_image oracle bytes).1.getD j (0, [])).1
              + (((write_image oracle bytes).1.getD j (0, [])).2).length) := by
  intro bytes oracle hO
  have hposts : (write_image oracle bytes).1 = withOffsets 0 (chunksOf 96 bytes) := by
    unfold write_image
    rw [write_image_loop_success oracle hO]
    simp
  have hlen : (write_image oracle bytes).1.length = (chunksOf 96 bytes).length := by
    rw [hposts, withOffsets_length]
  refine ⟨?_, ?_, ?_, ?_, ?_⟩
  · rw [hposts, withOffsets_map_snd, chunksOf_flatten]
  · intro j hj
    rw [hlen] at hj
    rw [hposts, withOffsets_getD _ 0 j (by omega)]
    exact chunksOf_full bytes j hj
  · intro hb
    have hN : 0 < (chunksOf 96 bytes).length := by
      rw [chunksOf_length]
      have : 0 < bytes.length := List.length_pos.mpr hb
      omega
    rw [hposts, withOffsets_length, withOffsets_getD _ 0 _ (by omega)]
    exact chunksOf_last bytes hb
  · intro j hj
    rw [hlen] at hj
    rw [hposts, withOffsets_getD _ 0 j hj]
    simp
  · intro j hj
    rw [hlen] at hj
    rw [hposts, withOffsets_getD _ 0 (j + 1) (by omega), withOffsets_getD _ 0 j (by omega)]
    have hfull := chunksOf_full bytes j hj
    simp only []
    rw [hfull]
    ring

theorem upload_chunking_witness :
    (((write_image (fun _ => PostResult.response true) (List.replicate 200 7)).1.map
        Prod.snd).flatten = List.replicate 200 7)
    ∧ ((write_image (fun _ => PostResult.response true)
        (List.replicate 200 7)).1.getD 1 (0, [])).1 = 96 * 1 :=
  ⟨(upload_chunking (List.replicate 200 7) _ (fun _ => rfl)).1,
   (upload_chunking (List.replicate 200 7) _ (fun _ => rfl)).2.2.2.1 1 (by decide)⟩

/-- C5: if the first `i` chunks succeed and chunk `i` (with `i < N - 1`)
is the first whose response is not a success — or its `send()` fails at
transport level — then exactly `i + 1` POSTs are made, none for any chunk
after `i`, and the client aborts with `Err("Upload failed")` after
logging the failing chunk's index (modelled by `uploadFailed (96·i)`),
respectively with the propagated transport error; no retry happens. -/
theorem upload_abort_on_failure :
    ∀ (bytes : List ℕ) (oracle : ℕ → PostResult) (i : ℕ),
      i + 1 < (chunksOf 96 bytes).length →
      (∀ j, j < i → oracle (96 * j) = .response true) →
      oracle (96 * i) ≠ .response true →
      (write_image oracle bytes).1.length = i + 1
      ∧ (∀ p ∈ (write_image oracle bytes).1, p.1 ≤ 96 * i)
      ∧ (oracle (96 * i) = .response false →
          (write_image oracle bytes).2 = .uploadFailed (96 * i))
      ∧ (oracle (96 * i) = .transport →
          (write_image oracle bytes).2 = .transportError) := by
  intro bytes oracle i hi hsucc hfail
  have hsucc0 : ∀ j, j < i → oracle (0 + 96 * j) = .response true := by simpa using hsucc
  have hfail0 : oracle (0 + 96 * i) ≠ .response true := by simpa using hfail
  rcases write_image_loop_abort oracle (chunksOf 96 bytes) i 0 [] (by omega) hsucc0 hfail0
    with ⟨hposts, hresp, htrans⟩
  refine ⟨?_, ?_, ?_, ?_⟩
  · show (write_image_loop oracle (chunksOf 96 bytes) 0 []).1.length = i + 1
    rw [hposts]
    simp only [List.nil_append, withOffsets_length, List.length_take]
    omega
  · intro p hp
    have hp' : p ∈ withOffsets 0 ((chunksOf 96 bytes).take (i + 1)) := by
      have : p ∈ (write_image_loop oracle (chunksOf 96 bytes) 0 []).1 := hp
      rw [hposts] at this
      simpa using this
    rcases withOffsets_mem _ 0 p hp' with ⟨j, hj, hpj⟩
    have hjle : j ≤ i := by
      rw [List.length_take] at hj
      omega
    rw [hpj]
    omega
  · intro hr
    have := hresp (by simpa using hr)
    show (write_image_loop oracle (chunksOf 96 bytes) 0 []).2 = _
    rw [this]
    simp
  · intro hr
    exact htrans (by simpa using hr)

theorem upload_abort_on_failure_witness :
    (write_image (fun idx => if idx = 0 then PostResult.response true else
        PostResult.response false) (List.replicate 200 5)).1.length = 2
    ∧ (write_image (fun idx => if idx = 0 then PostResult.response true else
        PostResult.response false) (List.replicate 200 5)).2
        = UploadOutcome.uploadFailed (96 * 1) := by
  have h := upload_abort_on_failure (List.replicate 200 5)
      (fun idx => if idx = 0 then PostResult.response true else PostResult.response false) 1
      (by decide)
      (fun j hj => by
        have hj0 : j = 0 := by omega
        subst hj0
        rfl)
      (by decide)
  exact ⟨h.1, h.2.2.1 (by decide)⟩

/-- C9 counterexample: a 100-byte PackedBitmap uploads in two chunks
(96 + 4 bytes); on full success the loop's final counter — the value
printed as the total — is 192, not the 100 bytes actually transmitted,
because `index += CHUNK_SIZE` adds 96 even for the short final chunk. -/
theorem upload_report_cex :
    (write_image (fun _ => PostResult.response true) (List.replicate 100 0)).2
        = UploadOutcome.ok 192
    ∧ (List.replicate 100 (0 : ℕ)).length = 100
    ∧ (192 : ℕ) ≠ 100 := by
  refine ⟨by decide, by decide, by decide⟩

/-- C9 (amended): when every chunk succeeds, the reported value is
`96 · ⌈len/96⌉` — the index counter after the last chunk — which equals
the PackedBitmap length exactly when 96 divides it (always true for the
2000×96 canvas's 24000-byte bitmaps). -/
theorem upload_report_total :
    ∀ (bytes : List ℕ) (oracle : ℕ → PostResult), (∀ i, oracle i = .response true) →
      (write_image oracle bytes).2 = .ok (96 * ((bytes.length + 95) / 96))
      ∧ (96 ∣ bytes.length → 96 * ((bytes.length + 95) / 96) = bytes.length) := by
  intro bytes oracle hO
  constructor
  · show (write_image_loop oracle (chunksOf 96 bytes) 0 []).2 = _
    rw [write_image_loop_success oracle hO]
    simp only []
    congr 1
    rw [chunksOf_length]
    omega
  · intro hdvd
    omega

theorem upload_report_total_witness :
    (write_image (fun _ => PostResult.response true) (List.replicate 192 0)).2
        = UploadOutcome.ok (96 * (((List.replicate 192 (0 : ℕ)).length + 95) / 96))
    ∧ 96 * (((List.replicate 192 (0 : ℕ)).length + 95) / 96)
        = (List.replicate 192 (0 : ℕ)).length :=
  ⟨(upload_report_total (List.replicate 192 0) _ (fun _ => rfl)).1,
   (upload_report_total (List.replicate 192 0) _ (fun _ => rfl)).2 (by decide)⟩

theorem drawStep_pixel (width height : ℕ) (st : (ℕ → ℕ → ℕ) × ℕ) (e : DrawEvent)
    (x y : ℕ) :
    (drawStep width height st e).1 x y
      = if (0 ≤ e.px ∧ e.px < (width : ℤ) ∧ 0 ≤ e.py ∧ e.py < (height : ℤ))
            ∧ e.v > 1 / 2 ∧ x = e.px.toNat ∧ y = e.py.toNat
        then 0 else st.1 x y := by
  unfold drawStep
  by_cases h1 : 0 ≤ e.px ∧ e.px < (width : ℤ) ∧ 0 ≤ e.py ∧ e.py < (height : ℤ)
  · rw [if_pos h1]
    by_cases h2 : e.v > 1 / 2
    · rw [if_pos h2]
      show (if x = e.px.toNat ∧ y = e.py.toNat then 0 else st.1 x y) = _
      by_cases h3 : x = e.px.toNat ∧ y = e.py.toNat
      · rw [if_pos h3, if_pos ⟨h1, h2, h3⟩]
      · have hnc : ¬ ((0 ≤ e.px ∧ e.px < (width : ℤ) ∧ 0 ≤ e.py ∧ e.py < (height : ℤ))
            ∧ e.v > 1 / 2 ∧ x = e.px.toNat ∧ y = e.py.toNat) := by tauto
        rw [if_neg h3, if_neg hnc]
    · rw [if_neg h2, if_neg (by tauto)]
  · rw [if_neg h1, if_neg (by tauto)]

theorem drawStep_used (width height : ℕ) (st : (ℕ → ℕ → ℕ) × ℕ) (e : DrawEvent) :
    (drawStep width height st e).2 = st.2
    ∨ ((drawStep width height st e).2 = e.px.toNat ∧ 0 ≤ e.px ∧ e.px < (width : ℤ)) := by
  unfold drawStep
  by_cases h1 : 0 ≤ e.px ∧ e.px < (width : ℤ) ∧ 0 ≤ e.py ∧ e.py < (height : ℤ)
  · rw [if_pos h1]
    by_cases h2 : e.v > 1 / 2
    · rw [if_pos h2]
      by_cases h3 : e.px.toNat > st.2
      · right
        refine ⟨?_, h1.1, h1.2.1⟩
        show (if e.px.toNat > st.2 then e.px.toNat else st.2) = e.px.toNat
        rw [if_pos h3]
      · left
        show (if e.px.toNat > st.2 then e.px.toNat else st.2) = st.2
        rw [if_neg h3]
    · left
      rw [if_neg h2]
  · left
    rw [if_neg h1]

theorem foldl_drawStep_used_le (width height : ℕ) (events : List DrawEvent) :
    ∀ st : (ℕ → ℕ → ℕ) × ℕ, st.2 ≤ width - 1 → 0 < width →
      (events.foldl (drawStep width height) st).2 ≤ width - 1 := by
  induction events with
  | nil =>
      intro st hst _
      exact hst
  | cons e rest ih =>
      intro st hst hw
      rw [List.foldl_cons]
      apply ih _ _ hw
      rcases drawStep_used width height st e with h | ⟨h, hge, hlt⟩
      · omega
      · have : e.px.toNat < width := by omega
        omega

theorem foldl_drawStep_values (width height : ℕ) (events : List DrawEvent) :
    ∀ (st : (ℕ → ℕ → ℕ) × ℕ) (x y : ℕ), st.1 x y = 0 ∨ st.1 x y = 255 →
      ((events.foldl (drawStep width height) st).1 x y = 0
        ∨ (events.foldl (drawStep width height) st).1 x y = 255) := by
  induction events with
  | nil =>
      intro st x y hst
      exact hst
  | cons e rest ih =>
      intro st x y hst
      rw [List.foldl_cons]
      apply ih
      rw [drawStep_pixel]
      split
      · left
        rfl
      · exact hst

theorem foldl_drawStep_eq_zero (width height : ℕ) (events : List DrawEvent) :
    ∀ (st : (ℕ → ℕ → ℕ) × ℕ) (x y : ℕ),
      ((events.foldl (drawStep width height) st).1 x y = 0
        ↔ (st.1 x y = 0
           ∨ ∃ e ∈ events,
               (0 ≤ e.px ∧ e.px < (width : ℤ) ∧ 0 ≤ e.py ∧ e.py < (height : ℤ))
               ∧ e.v > 1 / 2 ∧ x = e.px.toNat ∧ y = e.py.toNat)) := by
  induction events with
  | nil =>
      intro st x y
      simp
  | cons e rest ih =>
      intro st x y
      rw [List.foldl_cons, ih]
      rw [drawStep_pixel]
      by_cases hc : (0 ≤ e.px ∧ e.px < (width : ℤ) ∧ 0 ≤ e.py ∧ e.py < (height : ℤ))
          ∧ e.v > 1 / 2 ∧ x = e.px.toNat ∧ y = e.py.toNat
      · rw [if_pos hc]
        simp only [List.mem_cons]
        constructor
        · intro _
          right
          exact ⟨e, Or.inl rfl, hc⟩
        · intro _
          exact Or.inl (by trivial)
      · rw [if_neg hc]
        simp only [List.mem_cons]
        constructor
        · intro h
          rcases h with h | ⟨e', he', hP⟩
          · exact Or.inl h
          · exact Or.inr ⟨e', Or.inr he', hP⟩
        · intro h
          rcases h with h | ⟨e', he', hP⟩
          · exact Or.inl h
          · rcases he' with he' | he'
            · subst he'
              exact absurd hP hc
            · exact Or.inr ⟨e', he', hP⟩

theorem Int_log2_eq (q : ℚ) (e : ℤ) (h1 : (2 : ℚ) ^ e ≤ q) (h2 : q < (2 : ℚ) ^ (e + 1)) :
    Int.log 2 q = e := by
  have h0 : 0 < q := lt_of_lt_of_le (by positivity) h1
  have hcast : ((2 : ℕ) : ℚ) = (2 : ℚ) := by norm_num
  have hle : e ≤ Int.log 2 q := by
    rw [← Int.zpow_le_iff_le_log one_lt_two h0, hcast]
    exact h1
  have hge : Int.log 2 q ≤ e := by
    by_contra hlt
    push_neg at hlt
    have h3 : e + 1 ≤ Int.log 2 q := hlt
    rw [← Int.zpow_le_iff_le_log one_lt_two h0, hcast] at h3
    exact absurd h3 (not_le.mpr h2)
  omega

theorem fround_eval (q : ℚ) (e : ℤ) (h1 : (2 : ℚ) ^ e ≤ q) (h2 : q < (2 : ℚ) ^ (e + 1)) :
    fround q = (roundEven (q * 2 ^ ((23 : ℤ) - e)) : ℚ) * 2 ^ (e - 23) := by
  have h0 : 0 < q := lt_of_lt_of_le (by positivity) h1
  rw [fround, if_neg (ne_of_gt h0), if_pos h0, Int_log2_eq q e h1 h2]

theorem fround_one : fround 1 = 1 := by
  rw [fround_eval 1 0 (by norm_num) (by norm_num)]
  norm_num [roundEven]

theorem fround_96 : fround 96 = 96 := by
  rw [fround_eval 96 6 (by norm_num) (by norm_num)]
  norm_num [roundEven]

theorem fround_10000 : fround 10000 = 10000 := by
  rw [fround_eval 10000 13 (by norm_num) (by norm_num)]
  norm_num [roundEven]

theorem new_width_10000 : new_width 10000 96 = 10000 := by
  rw [new_width, toF32, toF32]
  norm_num [fround_96, fround_10000]
  rw [fdiv]
  norm_num [fround_one, fmul, fround_10000, f32round]
  decide

/-- C7 counterexample: when the font file cannot be read, the render does
not return any error value — the source's
`fs::read(font_path).expect("Error reading font file")` panics, so the
model yields a panic, not an error result; the Rust return type
(`ImageBuffer`) has no error channel at all. -/
theorem font_load_error_cex :
    create_image_with_text 2000 96 none (fun _ => none)
      = PanicOr.panicked "Error reading font file" := rfl

/-- C7 (amended): if the font file cannot be read the render panics with
`expect("Error reading font file")`, and if the bytes cannot be parsed as
a font it panics via `unwrap()`; in either case the function aborts
instead of returning, so no canvas or PackedBitmap is produced or used
downstream — but no `FontLoadError` error result is ever reported to the
caller. -/
theorem font_load_panics :
    ∀ (width height : ℕ) (parseLayout : List ℕ → Option (List DrawEvent)),
      create_image_with_text width height none parseLayout
          = .panicked "Error reading font file"
      ∧ ∀ data, parseLayout data = none →
          create_image_with_text width height (some data) parseLayout
            = .panicked "called Option unwrap on a None value" := by
  intro width height parseLayout
  refine ⟨rfl, fun data hd => ?_⟩
  simp only [create_image_with_text]
  rw [hd]

theorem font_load_panics_witness :
    create_image_with_text 2000 96 (some [1, 2, 3]) (fun _ => none)
      = PanicOr.panicked "called Option unwrap on a None value" :=
  (font_load_panics 2000 96 (fun _ => none)).2 [1, 2, 3] rfl

/-- C6 counterexample: a 10000×96 source image has scale factor 1, so
`new_width = 10000` and the image path stores 10000 as the print width,
exceeding the canvas width 2000 — the code never clamps it. -/
theorem used_width_image_cex :
    image_print_width 10000 96 = 10000 ∧ 2000 < image_print_width 10000 96 := by
  have h : image_print_width 10000 96 = 10000 := by
    rw [image_print_width, new_width_10000]
  exact ⟨h, by omega⟩

/-- C6 (amended): every text render's UsedWidth lies in `[1, 2000]`
(`used_len` only ever rises to an in-bounds ink column, then `+= 1`);
the image path's UsedWidth, however, is the unclamped scaled width
`new_width`, which can exceed the canvas width 2000. -/
theorem used_width_bounds :
    (∀ events : List DrawEvent,
        1 ≤ (renderText 2000 96 events).2 ∧ (renderText 2000 96 events).2 ≤ 2000)
    ∧ 2000 < image_print_width 10000 96 := by
  constructor
  · intro events
    have hb := foldl_drawStep_used_le 2000 96 events (fun _ _ => 255, 0) (by omega) (by omega)
    show 1 ≤ (events.foldl (drawStep 2000 96) (fun _ _ => 255, 0)).2 + 1
        ∧ (events.foldl (drawStep 2000 96) (fun _ _ => 255, 0)).2 + 1 ≤ 2000
    omega
  · have h : image_print_width 10000 96 = 10000 := by
      rw [image_print_width, new_width_10000]
    omega

/-- C10: after a text render every canvas pixel is exactly 0 or 255, and
it is 0 precisely when some glyph draw event covered that in-bounds
position with coverage above 0.5; all other pixels keep the initial
background value 255. -/
theorem text_canvas_two_valued :
    ∀ (width height : ℕ) (events : List DrawEvent) (x y : ℕ),
      ((renderText width height events).1 x y = 0
        ∨ (renderText width height events).1 x y = 255)
      ∧ ((renderText width height events).1 x y = 0 ↔
          ∃ e ∈ events,
            (0 ≤ e.px ∧ e.px < (width : ℤ) ∧ 0 ≤ e.py ∧ e.py < (height : ℤ))
            ∧ e.v > 1 / 2 ∧ x = e.px.toNat ∧ y = e.py.toNat) := by
  intro width height events x y
  constructor
  · exact foldl_drawStep_values width height events _ x y (Or.inr rfl)
  · show (events.foldl (drawStep width height) (fun _ _ => (255 : ℕ), 0)).1 x y = 0 ↔ _
    rw [foldl_drawStep_eq_zero]
    simp
